import Mathlib

/-!
Shallow embedding of the weighted-Voronoi-stippling relaxation core
(`src/main.ts`) and proofs about it.

Modelling conventions:
* JS numbers are modelled as `ℚ` (all arithmetic performed by the relevant
  source lines — `+`, `-`, `*`, `/`, squaring — is exact on the inputs the
  claims quantify over).
* The RGBA image buffer (`Uint8ClampedArray`) is modelled as a total function
  `ℕ → ℚ` giving the channel value at each buffer index.
* JS arrays that the source indexes and mutates are modelled as `List`s;
  `l.set i v` (a no-op out of bounds) models `a[i] = v`, and `l.getD i d`
  models `a[i]` (in bounds it is exactly the stored element).
* The d3-delaunay library is external to the repository; its capability
  surface (`find`, `voronoi`, `cellPolygons`) is modelled from the spec
  (§4.2): `find` is the nearest-site query, a pure function of the
  triangulation and the query point (the hint affects performance only), and
  `cellPolygons` yields one cell per site, used only to size the accumulator
  arrays.
* The unbounded sampling loop (`main.ts` lines 87–103) is modelled with
  explicit fuel: `none` means the loop has not produced the requested number
  of points within `fuel` draws.
-/

namespace Stippling

/-- Source constant `POINTS_COUNT` (src/main.ts line 5). -/
def POINTS_COUNT : ℕ := 5000

/-- Source constant `LERP_SPEED` (src/main.ts line 6). -/
def LERP_SPEED : ℚ := 0.5

/-- Source constant `WEIGHT_MULTIPLIER` (src/main.ts line 7); used only by the
external renderer. -/
def WEIGHT_MULTIPLIER : ℚ := 5

/-- The `Vector` record type of src/main.ts lines 9–12. -/
structure Vector where
  x : ℚ
  y : ℚ
deriving DecidableEq, Repr

/-- `getLuminosityFromBuffer` (src/main.ts lines 23–35): perceptual luminance
of pixel `(x, y)` read from the RGBA buffer of a `width`-pixel-wide image. -/
def getLuminosityFromBuffer (buffer : ℕ → ℚ) (x y width : ℕ) : ℚ :=
  let index := (y * width + x) * 4
  0.2126 * buffer index + 0.7152 * buffer (index + 1) + 0.0722 * buffer (index + 2)

/-- A Delaunay triangulation as the core consumes it: it owns the ordered list
of sites it was built from (site `i` is point `i`). -/
structure Delaunay where
  sites : List Vector
deriving DecidableEq, Repr

/-- `calculateDelaunay` (src/main.ts lines 37–44): builds the triangulation
from the point list (site order = point order). -/
def calculateDelaunay (points : List Vector) : Delaunay := ⟨points⟩

/-- A Voronoi diagram as the core consumes it: the triangulation it was
derived from plus the clipping bounds. -/
structure Voronoi where
  delaunay : Delaunay
  xmin : ℚ
  ymin : ℚ
  xmax : ℚ
  ymax : ℚ
deriving DecidableEq, Repr

/-- `delaunay.voronoi([xmin, ymin, xmax, ymax])`. -/
def Delaunay.voronoi (d : Delaunay) (xmin ymin xmax ymax : ℚ) : Voronoi :=
  ⟨d, xmin, ymin, xmax, ymax⟩

/-- Modelled from the spec (§4.2, d3-delaunay is external to the repository):
`Array.from(voronoi.cellPolygons()).length`, one cell per site, "used only to
size per-cell accumulator arrays to the point count". -/
def Voronoi.numCells (v : Voronoi) : ℕ := v.delaunay.sites.length

/-- Squared euclidean distance between two vectors. -/
def dist2 (a b : Vector) : ℚ := (a.x - b.x) ^ 2 + (a.y - b.y) ^ 2

set_option linter.unusedVariables false in
/-- Modelled from the spec (§4.2, d3-delaunay is external to the repository):
`delaunay.find(x, y, hint)` returns the index of the site nearest to
`(x, y)`; it is a pure function of the triangulation and the query point, the
hint affecting performance only (ties broken towards the lowest index). -/
def Delaunay.find (d : Delaunay) (x y : ℚ) (hint : ℕ) : ℕ :=
  (List.range d.sites.length).foldl
    (fun best i =>
      if dist2 (d.sites.getD i ⟨0, 0⟩) ⟨x, y⟩ < dist2 (d.sites.getD best ⟨0, 0⟩) ⟨x, y⟩
      then i else best)
    0

/-- The per-pixel weight computed at src/main.ts line 170:
`Math.pow(1 - luminosity / 255, 2)`. -/
def pixelWeight (luminosity : ℚ) : ℚ := (1 - luminosity / 255) ^ 2

/-- Modelled from the spec (§4.3/§6): the linear weight-curve variant
`w = 1 - luminance / 255`, stated by the spec as one of the two selectable
curves.  Used only to compare against the behaviour of the source. -/
def linearCurveSpec (luminosity : ℚ) : ℚ := 1 - luminosity / 255

/-- The pixels of the width×height grid in the iteration order of the nested
loops at src/main.ts lines 161–162: row-major, `y` outer, `x` inner. -/
def rasterPixels (width height : ℕ) : List (ℕ × ℕ) :=
  (List.range height).flatMap (fun y => (List.range width).map (fun x => (x, y)))

/-- The mutable state of the accumulation pass (src/main.ts lines 149–159):
the running point-location hint `delaunayIndex`, the per-cell coordinate sums
stored in `centroids`, the per-cell weight sums and pixel counts. -/
structure AccumState where
  delaunayIndex : ℕ
  centroids : List Vector
  weights : List ℚ
  counts : List ℕ
deriving DecidableEq, Repr

/-- One iteration of the pixel loop body (src/main.ts lines 163–176) on pixel
`p = (x, y)`: compute the luminance, derive the weight, locate the owning
cell using the previous pixel's result as hint, and add `x*w`, `y*w`, `w`
and `1` to that cell's sums. -/
def accumStep (buffer : ℕ → ℚ) (width : ℕ) (delaunay : Delaunay)
    (s : AccumState) (p : ℕ × ℕ) : AccumState :=
  let luminosity := getLuminosityFromBuffer buffer p.1 p.2 width
  let weight := pixelWeight luminosity
  let idx := delaunay.find (p.1 : ℚ) (p.2 : ℚ) s.delaunayIndex
  let c := s.centroids.getD idx ⟨0, 0⟩
  { delaunayIndex := idx
    centroids := s.centroids.set idx ⟨c.x + (p.1 : ℚ) * weight, c.y + (p.2 : ℚ) * weight⟩
    weights := s.weights.set idx (s.weights.getD idx 0 + weight)
    counts := s.counts.set idx (s.counts.getD idx 0 + 1) }

/-- The initial accumulator state (src/main.ts lines 149–158): `centroids`
filled with `{x: 0, y: 0}` (`POINTS_COUNT` entries), `weights`/`counts`
filled with `0` (`cells.length` entries), hint `delaunayIndex = 0`. -/
def accumInit (pointsCount numCells : ℕ) : AccumState :=
  { delaunayIndex := 0
    centroids := List.replicate pointsCount ⟨0, 0⟩
    weights := List.replicate numCells 0
    counts := List.replicate numCells 0 }

/-- The whole accumulation pass (src/main.ts lines 158–178): fold the pixel
loop body over the grid in raster order; the triangulation argument is fixed
for the whole pass. -/
def accumulate (buffer : ℕ → ℚ) (width height : ℕ) (delaunay : Delaunay)
    (pointsCount numCells : ℕ) : AccumState :=
  (rasterPixels width height).foldl (accumStep buffer width delaunay)
    (accumInit pointsCount numCells)

/-- The outputs of the finalization loop: the finalized per-cell centroids and
the per-cell average weights (`avgWeights` in the source). -/
structure CellOutputs where
  centroids : List Vector
  avgWeights : List ℚ
deriving DecidableEq, Repr

/-- One iteration of the finalization loop body (src/main.ts lines 180–191)
at index `i`: if cell `i` accumulated positive weight, divide its coordinate
sums by the weight sum and set `avgWeights[i] = weights[i] / (counts[i] || 1)`;
otherwise copy the current point `i` into `centroids[i]` (the `maxWeight`
bookkeeping of the source is dead for the function's outputs and is omitted). -/
def finalizeStep (points : List Vector) (s : AccumState)
    (out : CellOutputs) (i : ℕ) : CellOutputs :=
  if 0 < s.weights.getD i 0 then
    { centroids := out.centroids.set i
        ⟨(s.centroids.getD i ⟨0, 0⟩).x / s.weights.getD i 0,
         (s.centroids.getD i ⟨0, 0⟩).y / s.weights.getD i 0⟩
      avgWeights := out.avgWeights.set i
        (s.weights.getD i 0 /
          (if s.counts.getD i 0 = 0 then 1 else (s.counts.getD i 0 : ℚ))) }
  else
    { out with centroids := out.centroids.set i (points.getD i ⟨0, 0⟩) }

/-- The finalization loop (src/main.ts lines 180–191): iterate the body over
`0, …, centroids.length - 1`, starting from the accumulated coordinate sums
and `avgWeights` filled with `0` (`numCells` entries, line 152). -/
def finalizeCells (points : List Vector) (s : AccumState) (numCells : ℕ) :
    CellOutputs :=
  (List.range s.centroids.length).foldl (finalizeStep points s)
    { centroids := s.centroids, avgWeights := List.replicate numCells 0 }

/-- `lerpPoint` (src/main.ts lines 133–136). -/
def lerpPoint (a b : Vector) (t : ℚ) : Vector :=
  ⟨a.x + (b.x - a.x) * t, a.y + (b.y - a.y) * t⟩

/-- `lerpPoints` (src/main.ts lines 138–139): `a.map((v, i) => lerpPoint(v,
b[i], t))`, rendered as a map over positions (`v = a[i]`). -/
def lerpPoints (a b : List Vector) (t : ℚ) : List Vector :=
  (List.range a.length).map (fun i => lerpPoint (a.getD i ⟨0, 0⟩) (b.getD i ⟨0, 0⟩) t)

/-- The record returned by `recalculate` (src/main.ts lines 195–200). -/
structure Feedback where
  delaunay : Delaunay
  voronoi : Voronoi
  points : List Vector
  weights : List ℚ
deriving DecidableEq, Repr

/-- `recalculate` (src/main.ts lines 141–201).  The globals it reads —
`$canvas.width`, `$canvas.height`, `POINTS_COUNT` — are passed as the
`width`, `height` and `pointsCount` arguments.  Note the returned
`delaunay` is rebuilt from the argument `points` (line 196, not from
`lerpedPoints`), and the returned `voronoi` is derived from the incoming
`delaunay` argument (line 197). -/
def recalculate (buffer : ℕ → ℚ) (width height : ℕ) (delaunay : Delaunay)
    (voronoi : Voronoi) (points : List Vector) (pointsCount : ℕ) : Feedback :=
  let cellsLength := voronoi.numCells
  let s := accumulate buffer width height delaunay pointsCount cellsLength
  let out := finalizeCells points s cellsLength
  { delaunay := calculateDelaunay points
    voronoi := delaunay.voronoi 0 0 (width : ℚ) (height : ℚ)
    points := lerpPoints points out.centroids LERP_SPEED
    weights := out.avgWeights }

/-- The results of the three `randomInt` calls of one iteration of the
sampling loop (src/main.ts lines 89, 90 and 98): a candidate pixel `(x, y)`
and the acceptance roll `r` drawn from `[0, 100)`. -/
structure Draw where
  x : ℕ
  y : ℕ
  r : ℕ
deriving DecidableEq, Repr

/-- The initial-sampling loop (src/main.ts lines 87–103), unfolded with
explicit fuel.  `draws k` supplies the random values of the `k`-th loop
iteration; `remaining` is how many accepted points are still needed
(`POINTS_COUNT - i` in the source, which decrements `i` on rejection);
`none` means the loop has not produced the points within `fuel` iterations —
the source itself has no bound and no failure path. -/
def samplePoints (buffer : ℕ → ℚ) (width : ℕ) (draws : ℕ → Draw) :
    (k remaining fuel : ℕ) → Option (List Vector)
  | _, 0, _ => some []
  | _, _ + 1, 0 => none
  | k, rem + 1, fuel + 1 =>
    let d := draws k
    if (d.r : ℚ) > getLuminosityFromBuffer buffer d.x d.y width then
      (samplePoints buffer width draws (k + 1) rem fuel).map
        (fun rest => ⟨(d.x : ℚ), (d.y : ℚ)⟩ :: rest)
    else
      samplePoints buffer width draws (k + 1) (rem + 1) fuel

/-- The per-frame state carried across ticks by the `frame` callback
(src/main.ts lines 63–65 and 108–112): the current triangulation, Voronoi
diagram and point set. -/
structure SessionState where
  delaunay : Delaunay
  voronoi : Voronoi
  points : List Vector
deriving DecidableEq, Repr

/-- The session: state after `t` relaxation ticks.  Tick `t` consumes the
luminance buffer `buffers t`.  The initial state is the one built at frame 0
(src/main.ts lines 104–105); each tick replaces the state wholesale with the
feedback of `recalculate` (lines 108–112). -/
def session (buffers : ℕ → ℕ → ℚ) (width height pointsCount : ℕ)
    (initPoints : List Vector) : ℕ → SessionState
  | 0 =>
    ⟨calculateDelaunay initPoints,
     (calculateDelaunay initPoints).voronoi 0 0 (width : ℚ) (height : ℚ),
     initPoints⟩
  | t + 1 =>
    let prev := session buffers width height pointsCount initPoints t
    let fb := recalculate (buffers t) width height prev.delaunay prev.voronoi
      prev.points pointsCount
    ⟨fb.delaunay, fb.voronoi, fb.points⟩

/-- The ink weights rendered at tick `t` (src/main.ts lines 108 and 121):
the `weights` field of the feedback computed from the state after `t` ticks. -/
def sessionWeights (buffers : ℕ → ℕ → ℚ) (width height pointsCount : ℕ)
    (initPoints : List Vector) (t : ℕ) : List ℚ :=
  (recalculate (buffers t) width height
    (session buffers width height pointsCount initPoints t).delaunay
    (session buffers width height pointsCount initPoints t).voronoi
    (session buffers width height pointsCount initPoints t).points
    pointsCount).weights

/-- An all-black RGBA buffer: every channel is 0. -/
def blackBuffer : ℕ → ℚ := fun _ => 0

/-- An all-white RGBA buffer: every channel is 255, so every pixel has
luminance exactly 255. -/
def whiteBuffer : ℕ → ℚ := fun _ => 255

/-- A buffer whose every channel is 51, so every pixel has luminance exactly
51 (a luminance where the squared and the linear weight curves differ). -/
def gray51Buffer : ℕ → ℚ := fun _ => 51

/-- A draw stream that always returns pixel (0,0) with acceptance roll 0. -/
def zeroDraws : ℕ → Draw := fun _ => ⟨0, 0, 0⟩

/-! ### List helper lemmas -/

theorem set_of_length_le {α : Type _} {l : List α} {i : ℕ} (v : α)
    (h : l.length ≤ i) : l.set i v = l := by
  induction l generalizing i with
  | nil => rfl
  | cons a t ih =>
    cases i with
    | zero => simp at h
    | succ n => simp only [List.set]; rw [ih (by simpa using h)]

theorem getD_of_length_le {α : Type _} {l : List α} {i : ℕ} (d : α)
    (h : l.length ≤ i) : l.getD i d = d := by
  rw [List.getD_eq_getElem?_getD, List.getElem?_eq_none h]
  rfl

theorem getD_set_self {α : Type _} {l : List α} {i : ℕ} (v d : α)
    (h : i < l.length) : (l.set i v).getD i d = v := by
  rw [List.getD_eq_getElem?_getD, List.getElem?_set_self h]
  rfl

theorem getD_set_ne {α : Type _} {l : List α} {i j : ℕ} (v d : α)
    (h : i ≠ j) : (l.set i v).getD j d = l.getD j d := by
  rw [List.getD_eq_getElem?_getD, List.getElem?_set_ne h, ← List.getD_eq_getElem?_getD]

theorem set_getD_self {α : Type _} (l : List α) (i : ℕ) (d : α) :
    l.set i (l.getD i d) = l := by
  by_cases h : i < l.length
  · apply List.ext_getElem (by simp)
    intro j h1 h2
    by_cases hij : i = j
    · subst hij
      rw [List.getElem_set_self, List.getD_eq_getElem l d h2]
    · rw [List.getElem_set_ne hij]
  · exact set_of_length_le _ (le_of_not_lt h)

theorem getD_replicate_self {α : Type _} (n i : ℕ) (a : α) :
    (List.replicate n a).getD i a = a := by
  by_cases h : i < n
  · rw [List.getD_eq_getElem _ a (by simpa using h), List.getElem_replicate]
  · exact getD_of_length_le a (by simpa using le_of_not_lt h)

theorem sum_set_getD_add {M : Type _} [AddCommMonoid M] (l : List M) (i : ℕ) (x : M)
    (h : i < l.length) : (l.set i (l.getD i 0 + x)).sum = l.sum + x := by
  induction l generalizing i with
  | nil => simp at h
  | cons a t ih =>
    cases i with
    | zero =>
      simp only [List.getD_cons_zero, List.set, List.sum_cons]
      rw [add_right_comm]
    | succ n =>
      simp only [List.getD_cons_succ, List.set, List.sum_cons]
      rw [ih n (by simpa using h), add_assoc]

theorem getD_map_range {α : Type _} (n i : ℕ) (f : ℕ → α) (d : α) (h : i < n) :
    ((List.range n).map f).getD i d = f i := by
  rw [List.getD_eq_getElem _ d (by simpa using h)]
  simp

/-! ### Characterization of the finalization loop -/

/-- The value written into `avgWeights[j]` when cell `j` has positive
accumulated weight: `weights[j] / (counts[j] || 1)`. -/
def avgWeightValue (s : AccumState) (j : ℕ) : ℚ :=
  s.weights.getD j 0 / (if s.counts.getD j 0 = 0 then 1 else (s.counts.getD j 0 : ℚ))

/-- The centroid written into `centroids[j]` when cell `j` has positive
accumulated weight: the coordinate sums divided by the weight sum. -/
def centroidValue (s : AccumState) (j : ℕ) : Vector :=
  ⟨(s.centroids.getD j ⟨0, 0⟩).x / s.weights.getD j 0,
   (s.centroids.getD j ⟨0, 0⟩).y / s.weights.getD j 0⟩

theorem finalizeStep_avg_length (pts : List Vector) (s : AccumState)
    (out : CellOutputs) (i : ℕ) :
    (finalizeStep pts s out i).avgWeights.length = out.avgWeights.length := by
  unfold finalizeStep
  split <;> simp

theorem finalizeStep_centroids_length (pts : List Vector) (s : AccumState)
    (out : CellOutputs) (i : ℕ) :
    (finalizeStep pts s out i).centroids.length = out.centroids.length := by
  unfold finalizeStep
  split <;> simp

theorem finalizeStep_avg_getD (pts : List Vector) (s : AccumState)
    (out : CellOutputs) (i j : ℕ) :
    (finalizeStep pts s out i).avgWeights.getD j 0 =
      if j = i ∧ j < out.avgWeights.length ∧ 0 < s.weights.getD j 0
      then avgWeightValue s j
      else out.avgWeights.getD j 0 := by
  by_cases hw : 0 < s.weights.getD i 0
  · by_cases hij : j = i
    · subst hij
      by_cases hjl : j < out.avgWeights.length
      · have hc : j = j ∧ j < out.avgWeights.length ∧ 0 < s.weights.getD j 0 := ⟨rfl, hjl, hw⟩
        rw [if_pos hc]
        unfold finalizeStep
        rw [if_pos hw]
        exact getD_set_self _ _ hjl
      · have hc : ¬(j = j ∧ j < out.avgWeights.length ∧ 0 < s.weights.getD j 0) :=
          fun h => hjl h.2.1
        rw [if_neg hc]
        unfold finalizeStep
        rw [if_pos hw]
        dsimp only
        rw [set_of_length_le _ (le_of_not_lt hjl)]
    · have hc : ¬(j = i ∧ j < out.avgWeights.length ∧ 0 < s.weights.getD j 0) :=
        fun h => hij h.1
      rw [if_neg hc]
      unfold finalizeStep
      rw [if_pos hw]
      dsimp only
      exact getD_set_ne _ _ (fun h => hij h.symm)
  · have hc : ¬(j = i ∧ j < out.avgWeights.length ∧ 0 < s.weights.getD j 0) := by
      intro h
      apply hw
      rw [← h.1]
      exact h.2.2
    rw [if_neg hc]
    unfold finalizeStep
    rw [if_neg hw]

theorem finalizeStep_centroid_getD (pts : List Vector) (s : AccumState)
    (out : CellOutputs) (i j : ℕ) (d : Vector) :
    (finalizeStep pts s out i).centroids.getD j d =
      if j = i ∧ j < out.centroids.length
      then (if 0 < s.weights.getD j 0 then centroidValue s j else pts.getD j ⟨0, 0⟩)
      else out.centroids.getD j d := by
  by_cases hij : j = i
  · subst hij
    by_cases hjl : j < out.centroids.length
    · have hc : j = j ∧ j < out.centroids.length := ⟨rfl, hjl⟩
      rw [if_pos hc]
      by_cases hw : 0 < s.weights.getD j 0
      · rw [if_pos hw]
        unfold finalizeStep
        rw [if_pos hw]
        exact getD_set_self _ _ hjl
      · rw [if_neg hw]
        unfold finalizeStep
        rw [if_neg hw]
        dsimp only
        exact getD_set_self _ _ hjl
    · have hc : ¬(j = j ∧ j < out.centroids.length) := fun h => hjl h.2
      rw [if_neg hc]
      by_cases hw : 0 < s.weights.getD j 0
      · unfold finalizeStep
        rw [if_pos hw]
        dsimp only
        rw [set_of_length_le _ (le_of_not_lt hjl)]
      · unfold finalizeStep
        rw [if_neg hw]
        dsimp only
        rw [set_of_length_le _ (le_of_not_lt hjl)]
  · have hc : ¬(j = i ∧ j < out.centroids.length) := fun h => hij h.1
    rw [if_neg hc]
    by_cases hw : 0 < s.weights.getD i 0
    · unfold finalizeStep
      rw [if_pos hw]
      dsimp only
      exact getD_set_ne _ _ (fun h => hij h.symm)
    · unfold finalizeStep
      rw [if_neg hw]
      dsimp only
      exact getD_set_ne _ _ (fun h => hij h.symm)

theorem foldl_finalizeStep_avg (pts : List Vector) (s : AccumState)
    (is : List ℕ) (out : CellOutputs) (j : ℕ) :
    ((is.foldl (finalizeStep pts s) out).avgWeights.getD j 0) =
      if j ∈ is ∧ j < out.avgWeights.length ∧ 0 < s.weights.getD j 0
      then avgWeightValue s j
      else out.avgWeights.getD j 0 := by
  induction is generalizing out with
  | nil => simp
  | cons i tl ih =>
    rw [List.foldl_cons, ih, finalizeStep_avg_length, finalizeStep_avg_getD]
    by_cases htl : j ∈ tl ∧ j < out.avgWeights.length ∧ 0 < s.weights.getD j 0
    · have hc : j ∈ i :: tl ∧ j < out.avgWeights.length ∧ 0 < s.weights.getD j 0 :=
        ⟨List.mem_cons_of_mem i htl.1, htl.2⟩
      rw [if_pos htl, if_pos hc]
    · rw [if_neg htl]
      by_cases hji : j = i ∧ j < out.avgWeights.length ∧ 0 < s.weights.getD j 0
      · have hm : j ∈ i :: tl := by
          rw [hji.1]
          exact List.mem_cons_self i tl
        have hc : j ∈ i :: tl ∧ j < out.avgWeights.length ∧ 0 < s.weights.getD j 0 :=
          ⟨hm, hji.2⟩
        rw [if_pos hji, if_pos hc]
      · rw [if_neg hji, if_neg]
        intro hcons
        rcases List.mem_cons.mp hcons.1 with h1 | h1
        · exact hji ⟨h1, hcons.2⟩
        · exact htl ⟨h1, hcons.2⟩

theorem foldl_finalizeStep_centroid (pts : List Vector) (s : AccumState)
    (is : List ℕ) (out : CellOutputs) (j : ℕ) (d : Vector) :
    ((is.foldl (finalizeStep pts s) out).centroids.getD j d) =
      if j ∈ is ∧ j < out.centroids.length
      then (if 0 < s.weights.getD j 0 then centroidValue s j else pts.getD j ⟨0, 0⟩)
      else out.centroids.getD j d := by
  induction is generalizing out with
  | nil => simp
  | cons i tl ih =>
    rw [List.foldl_cons, ih, finalizeStep_centroids_length, finalizeStep_centroid_getD]
    by_cases htl : j ∈ tl ∧ j < out.centroids.length
    · have hc : j ∈ i :: tl ∧ j < out.centroids.length :=
        ⟨List.mem_cons_of_mem i htl.1, htl.2⟩
      rw [if_pos htl, if_pos hc]
    · rw [if_neg htl]
      by_cases hji : j = i ∧ j < out.centroids.length
      · have hm : j ∈ i :: tl := by
          rw [hji.1]
          exact List.mem_cons_self i tl
        have hc : j ∈ i :: tl ∧ j < out.centroids.length := ⟨hm, hji.2⟩
        rw [if_pos hji, if_pos hc]
      · rw [if_neg hji, if_neg]
        intro hcons
        rcases List.mem_cons.mp hcons.1 with h1 | h1
        · exact hji ⟨h1, hcons.2⟩
        · exact htl ⟨h1, hcons.2⟩

theorem finalize_avg_getD (pts : List Vector) (s : AccumState) (m j : ℕ) :
    (finalizeCells pts s m).avgWeights.getD j 0 =
      if j < s.centroids.length ∧ j < m ∧ 0 < s.weights.getD j 0
      then avgWeightValue s j
      else 0 := by
  unfold finalizeCells
  rw [foldl_finalizeStep_avg]
  simp only [List.mem_range, List.length_replicate]
  by_cases h : j < s.centroids.length ∧ j < m ∧ 0 < s.weights.getD j 0
  · rw [if_pos h, if_pos h]
  · rw [if_neg h, if_neg h, getD_replicate_self]

theorem finalize_centroid_getD (pts : List Vector) (s : AccumState) (m j : ℕ)
    (h : j < s.centroids.length) :
    (finalizeCells pts s m).centroids.getD j ⟨0, 0⟩ =
      if 0 < s.weights.getD j 0 then centroidValue s j else pts.getD j ⟨0, 0⟩ := by
  unfold finalizeCells
  rw [foldl_finalizeStep_centroid]
  simp [h]

theorem foldl_finalizeStep_avg_len (pts : List Vector) (s : AccumState)
    (is : List ℕ) (out : CellOutputs) :
    (is.foldl (finalizeStep pts s) out).avgWeights.length = out.avgWeights.length := by
  induction is generalizing out with
  | nil => rfl
  | cons i tl ih => rw [List.foldl_cons, ih, finalizeStep_avg_length]

theorem foldl_finalizeStep_centroids_len (pts : List Vector) (s : AccumState)
    (is : List ℕ) (out : CellOutputs) :
    (is.foldl (finalizeStep pts s) out).centroids.length = out.centroids.length := by
  induction is generalizing out with
  | nil => rfl
  | cons i tl ih => rw [List.foldl_cons, ih, finalizeStep_centroids_length]

theorem finalize_avg_length (pts : List Vector) (s : AccumState) (m : ℕ) :
    (finalizeCells pts s m).avgWeights.length = m := by
  unfold finalizeCells
  rw [foldl_finalizeStep_avg_len]
  simp

theorem finalize_centroids_length (pts : List Vector) (s : AccumState) (m : ℕ) :
    (finalizeCells pts s m).centroids.length = s.centroids.length := by
  unfold finalizeCells
  rw [foldl_finalizeStep_centroids_len]

/-! ### Characterization of the accumulation pass -/

theorem foldl_choice_bound (n : ℕ) (f : ℕ → ℕ → ℕ)
    (hf : ∀ b i, f b i = i ∨ f b i = b) (is : List ℕ) (b : ℕ)
    (hb : b < n) (his : ∀ i ∈ is, i < n) : is.foldl f b < n := by
  induction is generalizing b with
  | nil => exact hb
  | cons i tl ih =>
    rw [List.foldl_cons]
    apply ih
    · rcases hf b i with h | h
      · rw [h]
        exact his i (List.mem_cons_self i tl)
      · rw [h]
        exact hb
    · intro j hj
      exact his j (List.mem_cons_of_mem i hj)

theorem find_lt_length (d : Delaunay) (x y : ℚ) (hint : ℕ) (h : d.sites ≠ []) :
    d.find x y hint < d.sites.length := by
  unfold Delaunay.find
  have hpos : 0 < d.sites.length := List.length_pos.mpr h
  apply foldl_choice_bound d.sites.length _ _ _ 0 hpos
  · intro j hj
    exact List.mem_range.mp hj
  · intro b i
    by_cases hc : dist2 (d.sites.getD i ⟨0, 0⟩) ⟨x, y⟩ <
        dist2 (d.sites.getD b ⟨0, 0⟩) ⟨x, y⟩
    · left
      exact if_pos hc
    · right
      exact if_neg hc

theorem accumStep_centroids_length (buffer : ℕ → ℚ) (width : ℕ) (d : Delaunay)
    (s : AccumState) (p : ℕ × ℕ) :
    (accumStep buffer width d s p).centroids.length = s.centroids.length := by
  unfold accumStep
  exact List.length_set ..

theorem accumStep_weights_length (buffer : ℕ → ℚ) (width : ℕ) (d : Delaunay)
    (s : AccumState) (p : ℕ × ℕ) :
    (accumStep buffer width d s p).weights.length = s.weights.length := by
  unfold accumStep
  exact List.length_set ..

theorem accumStep_counts_length (buffer : ℕ → ℚ) (width : ℕ) (d : Delaunay)
    (s : AccumState) (p : ℕ × ℕ) :
    (accumStep buffer width d s p).counts.length = s.counts.length := by
  unfold accumStep
  exact List.length_set ..

theorem foldl_accumStep_lengths (buffer : ℕ → ℚ) (width : ℕ) (d : Delaunay)
    (ps : List (ℕ × ℕ)) (s : AccumState) :
    (ps.foldl (accumStep buffer width d) s).centroids.length = s.centroids.length ∧
    (ps.foldl (accumStep buffer width d) s).weights.length = s.weights.length ∧
    (ps.foldl (accumStep buffer width d) s).counts.length = s.counts.length := by
  induction ps generalizing s with
  | nil => exact ⟨rfl, rfl, rfl⟩
  | cons p tl ih =>
    rw [List.foldl_cons]
    refine ⟨?_, ?_, ?_⟩
    · rw [(ih _).1, accumStep_centroids_length]
    · rw [(ih _).2.1, accumStep_weights_length]
    · rw [(ih _).2.2, accumStep_counts_length]

theorem accumulate_centroids_length (buffer : ℕ → ℚ) (width height : ℕ) (d : Delaunay)
    (pointsCount numCells : ℕ) :
    (accumulate buffer width height d pointsCount numCells).centroids.length = pointsCount := by
  unfold accumulate
  rw [(foldl_accumStep_lengths ..).1]
  exact List.length_replicate ..

theorem accumulate_weights_length (buffer : ℕ → ℚ) (width height : ℕ) (d : Delaunay)
    (pointsCount numCells : ℕ) :
    (accumulate buffer width height d pointsCount numCells).weights.length = numCells := by
  unfold accumulate
  rw [(foldl_accumStep_lengths ..).2.1]
  exact List.length_replicate ..

theorem accumulate_counts_length (buffer : ℕ → ℚ) (width height : ℕ) (d : Delaunay)
    (pointsCount numCells : ℕ) :
    (accumulate buffer width height d pointsCount numCells).counts.length = numCells := by
  unfold accumulate
  rw [(foldl_accumStep_lengths ..).2.2]
  exact List.length_replicate ..

theorem pixelWeight_nonneg (luminosity : ℚ) : 0 ≤ pixelWeight luminosity := by
  unfold pixelWeight
  positivity

theorem luminosity_bounds (buffer : ℕ → ℚ) (x y width : ℕ)
    (hb : ∀ j, 0 ≤ buffer j ∧ buffer j ≤ 255) :
    0 ≤ getLuminosityFromBuffer buffer x y width ∧
      getLuminosityFromBuffer buffer x y width ≤ 255 := by
  unfold getLuminosityFromBuffer
  dsimp only
  constructor
  · have h0 := (hb ((y * width + x) * 4)).1
    have h1 := (hb ((y * width + x) * 4 + 1)).1
    have h2 := (hb ((y * width + x) * 4 + 2)).1
    positivity
  · have h0 := (hb ((y * width + x) * 4)).2
    have h1 := (hb ((y * width + x) * 4 + 1)).2
    have h2 := (hb ((y * width + x) * 4 + 2)).2
    nlinarith

theorem pixelWeight_le_one (luminosity : ℚ) (h0 : 0 ≤ luminosity)
    (h255 : luminosity ≤ 255) : pixelWeight luminosity ≤ 1 := by
  unfold pixelWeight
  have hu0 : (0 : ℚ) ≤ 1 - luminosity / 255 := by
    rw [sub_nonneg, div_le_one (by norm_num)]
    exact h255
  have hu1 : 1 - luminosity / 255 ≤ 1 := by
    have : (0 : ℚ) ≤ luminosity / 255 := by positivity
    linarith
  calc (1 - luminosity / 255) ^ 2 ≤ 1 ^ 2 := by nlinarith
  _ = 1 := one_pow 2

theorem foldl_accumStep_counts_sum (buffer : ℕ → ℚ) (width : ℕ) (d : Delaunay)
    (hne : d.sites ≠ []) (ps : List (ℕ × ℕ)) (s : AccumState)
    (hcl : s.counts.length = d.sites.length) :
    (ps.foldl (accumStep buffer width d) s).counts.sum = s.counts.sum + ps.length := by
  induction ps generalizing s with
  | nil => simp
  | cons p tl ih =>
    rw [List.foldl_cons, ih, List.length_cons]
    · have hidx : d.find (p.1 : ℚ) (p.2 : ℚ) s.delaunayIndex < s.counts.length := by
        rw [hcl]
        exact find_lt_length d _ _ _ hne
      have hstep : (accumStep buffer width d s p).counts.sum = s.counts.sum + 1 := by
        unfold accumStep
        exact sum_set_getD_add _ _ _ hidx
      rw [hstep]
      ring
    · rw [accumStep_counts_length, hcl]

theorem foldl_accumStep_weights_sum (buffer : ℕ → ℚ) (width : ℕ) (d : Delaunay)
    (hne : d.sites ≠ []) (ps : List (ℕ × ℕ)) (s : AccumState)
    (hwl : s.weights.length = d.sites.length) :
    (ps.foldl (accumStep buffer width d) s).weights.sum =
      s.weights.sum +
        (ps.map (fun p => pixelWeight (getLuminosityFromBuffer buffer p.1 p.2 width))).sum := by
  induction ps generalizing s with
  | nil => simp
  | cons p tl ih =>
    rw [List.foldl_cons, ih, List.map_cons, List.sum_cons]
    · have hidx : d.find (p.1 : ℚ) (p.2 : ℚ) s.delaunayIndex < s.weights.length := by
        rw [hwl]
        exact find_lt_length d _ _ _ hne
      have hstep : (accumStep buffer width d s p).weights.sum =
          s.weights.sum + pixelWeight (getLuminosityFromBuffer buffer p.1 p.2 width) := by
        unfold accumStep
        exact sum_set_getD_add _ _ _ hidx
      rw [hstep]
      ring
    · rw [accumStep_weights_length, hwl]

theorem foldl_accumStep_weight_le_count (buffer : ℕ → ℚ) (width : ℕ) (d : Delaunay)
    (hb : ∀ j, 0 ≤ buffer j ∧ buffer j ≤ 255) (ps : List (ℕ × ℕ)) (s : AccumState)
    (hlen : s.weights.length = s.counts.length)
    (hinv : ∀ i, s.weights.getD i 0 ≤ (s.counts.getD i 0 : ℚ)) :
    ∀ i, (ps.foldl (accumStep buffer width d) s).weights.getD i 0 ≤
      ((ps.foldl (accumStep buffer width d) s).counts.getD i 0 : ℚ) := by
  induction ps generalizing s with
  | nil => exact hinv
  | cons p tl ih =>
    rw [List.foldl_cons]
    apply ih
    · rw [accumStep_weights_length, accumStep_counts_length, hlen]
    · intro i
      have hw1 : pixelWeight (getLuminosityFromBuffer buffer p.1 p.2 width) ≤ 1 := by
        have hlum := luminosity_bounds buffer p.1 p.2 width hb
        exact pixelWeight_le_one _ hlum.1 hlum.2
      unfold accumStep
      dsimp only
      set idx := d.find (p.1 : ℚ) (p.2 : ℚ) s.delaunayIndex with hidx
      by_cases hii : idx = i
      · subst hii
        by_cases hil : idx < s.weights.length
        · rw [getD_set_self _ _ hil, getD_set_self _ _ (by rw [← hlen]; exact hil)]
          push_cast
          have := hinv idx
          linarith
        · rw [set_of_length_le _ (le_of_not_lt hil),
            set_of_length_le _ (le_of_not_lt (by rw [← hlen]; exact hil))]
          exact hinv idx
      · rw [getD_set_ne _ _ hii, getD_set_ne _ _ hii]
        exact hinv i

theorem foldl_accumStep_weights_nonneg (buffer : ℕ → ℚ) (width : ℕ) (d : Delaunay)
    (ps : List (ℕ × ℕ)) (s : AccumState)
    (hinv : ∀ i, 0 ≤ s.weights.getD i 0) :
    ∀ i, 0 ≤ (ps.foldl (accumStep buffer width d) s).weights.getD i 0 := by
  induction ps generalizing s with
  | nil => exact hinv
  | cons p tl ih =>
    rw [List.foldl_cons]
    apply ih
    intro i
    unfold accumStep
    dsimp only
    set idx := d.find (p.1 : ℚ) (p.2 : ℚ) s.delaunayIndex with hidx
    by_cases hii : idx = i
    · subst hii
      by_cases hil : idx < s.weights.length
      · rw [getD_set_self _ _ hil]
        have := pixelWeight_nonneg (getLuminosityFromBuffer buffer p.1 p.2 width)
        have := hinv idx
        linarith
      · rw [set_of_length_le _ (le_of_not_lt hil)]
        exact hinv idx
    · rw [getD_set_ne _ _ hii]
      exact hinv i

theorem rasterPixels_length (width height : ℕ) :
    (rasterPixels width height).length = width * height := by
  unfold rasterPixels
  rw [List.length_flatMap]
  induction height with
  | zero => simp
  | succ h ih =>
    rw [List.range_succ, List.map_append, List.sum_append, ih]
    simp [Nat.mul_succ]

theorem rasterPixels_succ (width height : ℕ) :
    rasterPixels width (height + 1) =
      rasterPixels width height ++ (List.range width).map (fun x => (x, height)) := by
  unfold rasterPixels
  rw [List.range_succ, List.flatMap_append]
  simp

theorem rasterPixels_mem (width height : ℕ) (p : ℕ × ℕ) :
    p ∈ rasterPixels width height ↔ p.1 < width ∧ p.2 < height := by
  unfold rasterPixels
  simp only [List.mem_flatMap, List.mem_map, List.mem_range]
  constructor
  · rintro ⟨y, hy, x, hx, rfl⟩
    exact ⟨hx, hy⟩
  · rintro ⟨h1, h2⟩
    exact ⟨p.2, h2, p.1, h1, rfl⟩

theorem rasterPixels_getD (width height x y : ℕ) (hx : x < width) (hy : y < height) :
    (rasterPixels width height).getD (y * width + x) (0, 0) = (x, y) := by
  induction height with
  | zero => simp at hy
  | succ h ih =>
    rw [rasterPixels_succ]
    by_cases hyh : y < h
    · have hlt : y * width + x < (rasterPixels width h).length := by
        rw [rasterPixels_length]
        calc y * width + x < y * width + width := by omega
        _ = (y + 1) * width := by ring
        _ ≤ h * width := Nat.mul_le_mul_right width hyh
        _ = width * h := Nat.mul_comm h width
      rw [List.getD_eq_getElem?_getD, List.getElem?_append, if_pos hlt,
        ← List.getD_eq_getElem?_getD]
      exact ih hyh
    · have hyeq : y = h := by omega
      subst hyeq
      have hlen : (rasterPixels width y).length = y * width := by
        rw [rasterPixels_length]
        exact Nat.mul_comm width y
      have hidx : y * width + x = (rasterPixels width y).length + x := by rw [hlen]
      rw [hidx, List.getD_eq_getElem?_getD, List.getElem?_append_right (by omega)]
      have : (rasterPixels width y).length + x - (rasterPixels width y).length = x := by
        omega
      rw [this, ← List.getD_eq_getElem?_getD, getD_map_range _ _ _ _ hx]

theorem lerpPoint_self (a : Vector) (t : ℚ) : lerpPoint a a t = a := by
  unfold lerpPoint
  simp

theorem lerpPoints_length (a b : List Vector) (t : ℚ) :
    (lerpPoints a b t).length = a.length := by
  unfold lerpPoints
  simp

theorem lerpPoints_getD (a b : List Vector) (t : ℚ) (i : ℕ) (h : i < a.length) :
    (lerpPoints a b t).getD i ⟨0, 0⟩ =
      lerpPoint (a.getD i ⟨0, 0⟩) (b.getD i ⟨0, 0⟩) t := by
  unfold lerpPoints
  exact getD_map_range _ _ _ _ h

/-- On a buffer whose pixels all have luminance 255 the per-pixel weight is 0,
so the accumulation pass leaves the weight sums untouched. -/
theorem foldl_accumStep_weights_white (buffer : ℕ → ℚ) (width : ℕ) (d : Delaunay)
    (hb : ∀ j, buffer j = 255) (ps : List (ℕ × ℕ)) (s : AccumState) :
    (ps.foldl (accumStep buffer width d) s).weights = s.weights := by
  induction ps generalizing s with
  | nil => rfl
  | cons p tl ih =>
    rw [List.foldl_cons, ih]
    have hlum : getLuminosityFromBuffer buffer p.1 p.2 width = 255 := by
      unfold getLuminosityFromBuffer
      simp only [hb]
      norm_num
    have hw : pixelWeight (getLuminosityFromBuffer buffer p.1 p.2 width) = 0 := by
      rw [hlum]
      unfold pixelWeight
      norm_num
    show (accumStep buffer width d s p).weights = s.weights
    unfold accumStep
    dsimp only
    rw [hw, add_zero, set_getD_self]

theorem luminosity_of_black (buffer : ℕ → ℚ) (x y width : ℕ)
    (hb : ∀ j, buffer j = 0) : getLuminosityFromBuffer buffer x y width = 0 := by
  unfold getLuminosityFromBuffer
  simp only [hb]
  norm_num

theorem luminosity_of_white (buffer : ℕ → ℚ) (x y width : ℕ)
    (hb : ∀ j, buffer j = 255) : getLuminosityFromBuffer buffer x y width = 255 := by
  unfold getLuminosityFromBuffer
  simp only [hb]
  norm_num

/-- On the all-black grid the sampling loop accepts every draw whose roll is
at least 1, so `remaining` draws produce exactly the `remaining` drawn
pixels. -/
theorem samplePoints_black_all_accepted (buffer : ℕ → ℚ) (width : ℕ)
    (draws : ℕ → Draw) (hbuf : ∀ j, buffer j = 0) (n k : ℕ)
    (hr : ∀ j, j < n → 1 ≤ (draws (k + j)).r) :
    samplePoints buffer width draws k n n =
      some ((List.range n).map
        (fun j => ⟨((draws (k + j)).x : ℚ), ((draws (k + j)).y : ℚ)⟩)) := by
  induction n generalizing k with
  | zero => rfl
  | succ m ih =>
    have hacc : ((draws k).r : ℚ) >
        getLuminosityFromBuffer buffer (draws k).x (draws k).y width := by
      rw [luminosity_of_black buffer _ _ _ hbuf]
      have h1 : 1 ≤ (draws k).r := by simpa using hr 0 (Nat.succ_pos m)
      exact_mod_cast Nat.lt_of_lt_of_le Nat.zero_lt_one h1
    show samplePoints buffer width draws k (m + 1) (m + 1) = _
    unfold samplePoints
    rw [if_pos hacc]
    have hr2 : ∀ j, j < m → 1 ≤ (draws (k + 1 + j)).r := by
      intro j hj
      have : k + 1 + j = k + (j + 1) := by omega
      rw [this]
      exact hr (j + 1) (by omega)
    rw [ih (k + 1) hr2]
    rw [Option.map_some', List.range_succ_eq_map]
    congr 1
    rw [List.map_cons, List.map_map]
    congr 1
    apply List.map_congr_left
    intro j _
    have h1 : k + Nat.succ j = k + 1 + j := by omega
    simp [Function.comp, h1]

/-- On a grid where no pixel can ever be accepted, the sampling loop never
finishes: one rejection step. -/
theorem samplePoints_white_never (buffer : ℕ → ℚ) (width : ℕ)
    (draws : ℕ → Draw) (hbuf : ∀ j, buffer j = 255)
    (hr : ∀ j, (draws j).r < 100) (rem : ℕ) :
    ∀ (fuel k : ℕ), samplePoints buffer width draws k (rem + 1) fuel = none := by
  intro fuel
  induction fuel with
  | zero => intro k; rfl
  | succ f ih =>
    intro k
    have hrej : ¬ (((draws k).r : ℚ) >
        getLuminosityFromBuffer buffer (draws k).x (draws k).y width) := by
      rw [luminosity_of_white buffer _ _ _ hbuf]
      push_neg
      have : (draws k).r < 100 := hr k
      have hcast : ((draws k).r : ℚ) < 100 := by exact_mod_cast this
      linarith
    show samplePoints buffer width draws k (rem + 1) (f + 1) = none
    unfold samplePoints
    rw [if_neg hrej]
    exact ih (k + 1)

/-! ### Projections of `recalculate` -/

theorem recalculate_delaunay (buffer : ℕ → ℚ) (width height : ℕ) (d : Delaunay)
    (v : Voronoi) (pts : List Vector) (n : ℕ) :
    (recalculate buffer width height d v pts n).delaunay = calculateDelaunay pts := rfl

theorem recalculate_voronoi (buffer : ℕ → ℚ) (width height : ℕ) (d : Delaunay)
    (v : Voronoi) (pts : List Vector) (n : ℕ) :
    (recalculate buffer width height d v pts n).voronoi =
      d.voronoi 0 0 (width : ℚ) (height : ℚ) := rfl

theorem recalculate_points (buffer : ℕ → ℚ) (width height : ℕ) (d : Delaunay)
    (v : Voronoi) (pts : List Vector) (n : ℕ) :
    (recalculate buffer width height d v pts n).points =
      lerpPoints pts
        (finalizeCells pts (accumulate buffer width height d n v.numCells)
          v.numCells).centroids
        LERP_SPEED := rfl

theorem recalculate_weights (buffer : ℕ → ℚ) (width height : ℕ) (d : Delaunay)
    (v : Voronoi) (pts : List Vector) (n : ℕ) :
    (recalculate buffer width height d v pts n).weights =
      (finalizeCells pts (accumulate buffer width height d n v.numCells)
        v.numCells).avgWeights := rfl

theorem recalculate_points_length (buffer : ℕ → ℚ) (width height : ℕ) (d : Delaunay)
    (v : Voronoi) (pts : List Vector) (n : ℕ) :
    (recalculate buffer width height d v pts n).points.length = pts.length := by
  rw [recalculate_points, lerpPoints_length]

theorem recalculate_weights_length (buffer : ℕ → ℚ) (width height : ℕ) (d : Delaunay)
    (v : Voronoi) (pts : List Vector) (n : ℕ) :
    (recalculate buffer width height d v pts n).weights.length = v.numCells := by
  rw [recalculate_weights, finalize_avg_length]

/-- A cell whose average weight entry gets written receives a non-negative
value, so every entry of the returned `weights` is non-negative. -/
theorem recalculate_weights_getD_nonneg (buffer : ℕ → ℚ) (width height : ℕ)
    (d : Delaunay) (v : Voronoi) (pts : List Vector) (n i : ℕ) :
    0 ≤ (recalculate buffer width height d v pts n).weights.getD i 0 := by
  rw [recalculate_weights, finalize_avg_getD]
  split
  · next h =>
    unfold avgWeightValue
    apply div_nonneg (le_of_lt h.2.2)
    split
    · norm_num
    · positivity
  · exact le_refl 0

/-- The state invariant that makes every tick well-shaped: the point set, the
triangulation's site list and the Voronoi diagram's cell count all have the
configured cardinality.  It is established at initialization and preserved by
every tick. -/
theorem session_invariant (buffers : ℕ → ℕ → ℚ) (width height N : ℕ)
    (initPoints : List Vector) (h : initPoints.length = N) (t : ℕ) :
    (session buffers width height N initPoints t).points.length = N ∧
    (session buffers width height N initPoints t).delaunay.sites.length = N ∧
    (session buffers width height N initPoints t).voronoi.numCells = N := by
  induction t with
  | zero => exact ⟨h, h, h⟩
  | succ t ih =>
    refine ⟨?_, ?_, ?_⟩
    · show (recalculate (buffers t) width height
        (session buffers width height N initPoints t).delaunay
        (session buffers width height N initPoints t).voronoi
        (session buffers width height N initPoints t).points N).points.length = N
      rw [recalculate_points_length]
      exact ih.1
    · show (recalculate (buffers t) width height
        (session buffers width height N initPoints t).delaunay
        (session buffers width height N initPoints t).voronoi
        (session buffers width height N initPoints t).points N).delaunay.sites.length = N
      rw [recalculate_delaunay]
      exact ih.1
    · show (recalculate (buffers t) width height
        (session buffers width height N initPoints t).delaunay
        (session buffers width height N initPoints t).voronoi
        (session buffers width height N initPoints t).points N).voronoi.numCells = N
      rw [recalculate_voronoi]
      exact ih.2.1

/-! ### Claims -/

/-- C1: the claim says the Partition Engine returned for the following frame
is rebuilt from the *next* (interpolated) point set.  The code does the
opposite: at the concrete input below one tick moves the point from (5,5) to
(5/2,5/2), yet the returned triangulation is rebuilt from the pre-update
point set (src/main.ts line 196 passes `points`, not `lerpedPoints`, to
`calculateDelaunay`), and the returned Voronoi diagram is derived from the
incoming previous triangulation (line 197). -/
theorem C1_partition_rebuilt_from_pre_update_points :
    (recalculate blackBuffer 1 1 (calculateDelaunay [⟨5, 5⟩])
      ((calculateDelaunay [⟨5, 5⟩]).voronoi 0 0 1 1) [⟨5, 5⟩] 1).points =
        [⟨5/2, 5/2⟩] ∧
    (recalculate blackBuffer 1 1 (calculateDelaunay [⟨5, 5⟩])
      ((calculateDelaunay [⟨5, 5⟩]).voronoi 0 0 1 1) [⟨5, 5⟩] 1).delaunay =
        calculateDelaunay [⟨5, 5⟩] ∧
    (recalculate blackBuffer 1 1 (calculateDelaunay [⟨5, 5⟩])
      ((calculateDelaunay [⟨5, 5⟩]).voronoi 0 0 1 1) [⟨5, 5⟩] 1).delaunay ≠
        calculateDelaunay
          (recalculate blackBuffer 1 1 (calculateDelaunay [⟨5, 5⟩])
            ((calculateDelaunay [⟨5, 5⟩]).voronoi 0 0 1 1) [⟨5, 5⟩] 1).points ∧
    (recalculate blackBuffer 1 1 (calculateDelaunay [⟨5, 5⟩])
      ((calculateDelaunay [⟨5, 5⟩]).voronoi 0 0 1 1) [⟨5, 5⟩] 1).voronoi.delaunay =
        calculateDelaunay [⟨5, 5⟩] := by
  norm_num [recalculate, accumulate, rasterPixels, accumStep, accumInit, finalizeCells,
    finalizeStep, lerpPoints, lerpPoint, getLuminosityFromBuffer, pixelWeight,
    Delaunay.find, dist2, blackBuffer, LERP_SPEED, calculateDelaunay, Delaunay.voronoi,
    Voronoi.numCells, List.range_succ]

/-- C2: for every tick the relaxation step returns as many points as weights,
and both lengths equal the configured point count at every tick of the
session. -/
theorem C2_cardinality_invariance (buffers : ℕ → ℕ → ℚ) (width height N : ℕ)
    (initPoints : List Vector) (h : initPoints.length = N) (t : ℕ) :
    (session buffers width height N initPoints t).points.length = N ∧
    (sessionWeights buffers width height N initPoints t).length = N := by
  refine ⟨(session_invariant buffers width height N initPoints h t).1, ?_⟩
  unfold sessionWeights
  rw [recalculate_weights_length]
  exact (session_invariant buffers width height N initPoints h t).2.2

theorem C2_cardinality_invariance_witness :
    ([(⟨0, 0⟩ : Vector)].length = 1) ∧
    (session (fun _ _ => 0) 1 1 1 [⟨0, 0⟩] 2).points.length = 1 ∧
    (sessionWeights (fun _ _ => 0) 1 1 1 [⟨0, 0⟩] 2).length = 1 :=
  ⟨rfl, C2_cardinality_invariance (fun _ _ => 0) 1 1 1 [⟨0, 0⟩] rfl 2⟩

/-- C3 counterexample: on the all-black grid (luminance 0 everywhere) the
acceptance test `r > luminance(x,y)` does NOT succeed for every possible
drawn `r` in `[0,100)`: the roll `r = 0` fails it (`0 > 0` is false), and with
`pointCount = 1` the sampler has not terminated after 1 draw. -/
theorem C3_zero_roll_rejected_on_black :
    ¬ (((zeroDraws 0).r : ℚ) > getLuminosityFromBuffer blackBuffer 0 0 1) ∧
    samplePoints blackBuffer 1 zeroDraws 0 1 1 = none := by
  constructor
  · norm_num [getLuminosityFromBuffer, blackBuffer, zeroDraws]
  · norm_num [samplePoints, zeroDraws, getLuminosityFromBuffer, blackBuffer]

/-- C3 (amended): on an all-black grid the acceptance test `r > luminance(x,y)`
succeeds exactly for the drawn rolls `r ≥ 1` (a roll of `r = 0` is rejected);
whenever every roll is at least 1, initialization terminates in exactly
`pointCount` draws, accepting every drawn pixel. -/
theorem C3_black_grid_acceptance (buffer : ℕ → ℚ) (width : ℕ) (draws : ℕ → Draw)
    (n : ℕ) (hbuf : ∀ j, buffer j = 0) (hr : ∀ j, j < n → 1 ≤ (draws j).r) :
    (∀ x y r : ℕ, ((r : ℚ) > getLuminosityFromBuffer buffer x y width ↔ 1 ≤ r)) ∧
    samplePoints buffer width draws 0 n n =
      some ((List.range n).map
        (fun j => ⟨((draws j).x : ℚ), ((draws j).y : ℚ)⟩)) := by
  constructor
  · intro x y r
    rw [luminosity_of_black buffer x y width hbuf]
    constructor
    · intro hgt
      have h0 : (0 : ℚ) < (r : ℚ) := hgt
      have : 0 < r := by exact_mod_cast h0
      omega
    · intro h1
      have h0 : 0 < r := h1
      show ((r : ℚ) > 0)
      exact_mod_cast h0
  · have h := samplePoints_black_all_accepted buffer width draws hbuf n 0
      (by
        intro j hj
        have h0 : (0 : ℕ) + j = j := Nat.zero_add j
        rw [h0]
        exact hr j hj)
    rw [h]
    congr 1
    apply List.map_congr_left
    intro j _
    rw [Nat.zero_add]

theorem C3_black_grid_acceptance_witness :
    samplePoints blackBuffer 3 (fun k => ⟨k, 0, 7⟩) 0 2 2 =
      some [⟨0, 0⟩, ⟨1, 0⟩] := by
  have h := (C3_black_grid_acceptance blackBuffer 3 (fun k => ⟨k, 0, 7⟩) 2
    (fun _ => rfl) (fun j _ => by norm_num)).2
  rw [h]
  norm_num [List.range_succ]

/-- C4: the claim is that sampling either produces the points within a
bounded number of draws or surfaces an explicit failure.  The code has no
failure path and no bound: on an all-white grid (every channel 255, so every
pixel has luminance 255 while every roll is below 100) the sampling loop
rejects every draw, so for EVERY fuel bound it has still not produced the
requested points — it loops forever. -/
theorem C4_sampling_never_terminates_on_white (buffer : ℕ → ℚ) (width : ℕ)
    (draws : ℕ → Draw) (n : ℕ) (hbuf : ∀ j, buffer j = 255)
    (hr : ∀ j, (draws j).r < 100) (hn : 1 ≤ n) :
    ∀ fuel, samplePoints buffer width draws 0 n fuel = none := by
  intro fuel
  obtain ⟨rem, rfl⟩ : ∃ rem, n = rem + 1 := ⟨n - 1, by omega⟩
  exact samplePoints_white_never buffer width draws hbuf hr rem fuel 0

theorem C4_sampling_never_terminates_on_white_witness :
    samplePoints whiteBuffer 1 zeroDraws 0 1 5 = none :=
  C4_sampling_never_terminates_on_white whiteBuffer 1 zeroDraws 1
    (fun _ => rfl) (fun _ => by norm_num [zeroDraws]) (le_refl 1) 5

/-- C5: a cell with zero accumulated weight produces no division by zero:
its ink weight is exactly 0 and its next point equals its current point
(the centroid falls back to the current position).  Consequently, on a
uniformly maximal-luminance grid (all pixels luminance 255) one tick returns
the points unchanged and all weights zero. -/
theorem C5_zero_weight_fallback :
    (∀ (buffer : ℕ → ℚ) (width height : ℕ) (d : Delaunay) (v : Voronoi)
        (pts : List Vector) (n i : ℕ),
      i < pts.length → i < n →
      (accumulate buffer width height d n v.numCells).weights.getD i 0 = 0 →
      (recalculate buffer width height d v pts n).weights.getD i 0 = 0 ∧
        (finalizeCells pts (accumulate buffer width height d n v.numCells)
          v.numCells).centroids.getD i ⟨0, 0⟩ = pts.getD i ⟨0, 0⟩ ∧
        (recalculate buffer width height d v pts n).points.getD i ⟨0, 0⟩ =
          pts.getD i ⟨0, 0⟩) ∧
    (∀ (buffer : ℕ → ℚ) (width height : ℕ) (d : Delaunay) (v : Voronoi)
        (pts : List Vector) (n : ℕ),
      (∀ j, buffer j = 255) → pts.length ≤ n →
      (recalculate buffer width height d v pts n).points = pts ∧
        ∀ i, (recalculate buffer width height d v pts n).weights.getD i 0 = 0) := by
  have key : ∀ (buffer : ℕ → ℚ) (width height : ℕ) (d : Delaunay) (v : Voronoi)
      (pts : List Vector) (n i : ℕ),
      i < pts.length → i < n →
      (accumulate buffer width height d n v.numCells).weights.getD i 0 = 0 →
      (recalculate buffer width height d v pts n).weights.getD i 0 = 0 ∧
        (finalizeCells pts (accumulate buffer width height d n v.numCells)
          v.numCells).centroids.getD i ⟨0, 0⟩ = pts.getD i ⟨0, 0⟩ ∧
        (recalculate buffer width height d v pts n).points.getD i ⟨0, 0⟩ =
          pts.getD i ⟨0, 0⟩ := by
    intro buffer width height d v pts n i hip hin hw0
    have hnotpos : ¬ 0 <
        (accumulate buffer width height d n v.numCells).weights.getD i 0 := by
      rw [hw0]
      exact lt_irrefl 0
    have hcent : (finalizeCells pts (accumulate buffer width height d n v.numCells)
        v.numCells).centroids.getD i ⟨0, 0⟩ = pts.getD i ⟨0, 0⟩ := by
      rw [finalize_centroid_getD _ _ _ _
        (by rw [accumulate_centroids_length]; exact hin)]
      rw [if_neg hnotpos]
    refine ⟨?_, hcent, ?_⟩
    · rw [recalculate_weights, finalize_avg_getD, if_neg]
      intro hc
      exact hnotpos hc.2.2
    · rw [recalculate_points, lerpPoints_getD _ _ _ _ hip, hcent, lerpPoint_self]
  refine ⟨key, ?_⟩
  intro buffer width height d v pts n hbuf hlen
  have hacc : (accumulate buffer width height d n v.numCells).weights =
      List.replicate v.numCells 0 := by
    unfold accumulate
    rw [foldl_accumStep_weights_white buffer width d hbuf]
    rfl
  have hw0 : ∀ i, (accumulate buffer width height d n v.numCells).weights.getD i 0
      = 0 := by
    intro i
    rw [hacc]
    exact getD_replicate_self ..
  constructor
  · apply List.ext_getElem
    · rw [recalculate_points_length]
    · intro i h1 h2
      have hip : i < pts.length := h2
      have hall := key buffer width height d v pts n i hip
        (Nat.lt_of_lt_of_le hip hlen) (hw0 i)
      have hgl : (recalculate buffer width height d v pts n).points[i] =
          (recalculate buffer width height d v pts n).points.getD i ⟨0, 0⟩ :=
        (List.getD_eq_getElem _ _ h1).symm
      rw [hgl, hall.2.2, List.getD_eq_getElem _ _ h2]
  · intro i
    rw [recalculate_weights, finalize_avg_getD, if_neg]
    intro hc
    rw [hw0 i] at hc
    exact lt_irrefl 0 hc.2.2

/-- Helper for C8: interpolating all the way (`t = 1`) lands exactly on the
second point. -/
theorem lerpPoint_one (a b : Vector) : lerpPoint a b 1 = b := by
  unfold lerpPoint
  obtain ⟨bx, byv⟩ := b
  simp only [Vector.mk.injEq]
  constructor <;> ring

/-- Helper for C8: interpolating not at all (`t = 0`) stays at the first
point. -/
theorem lerpPoint_zero (a b : Vector) : lerpPoint a b 0 = a := by
  unfold lerpPoint
  obtain ⟨ax, ayv⟩ := a
  simp only [Vector.mk.injEq]
  constructor <;> ring

/-- C6: for a cell with positive accumulated weight the relaxation step
computes the centroid as the weighted coordinate sums divided by the weight
sum, and the ink weight as `weightSum / max(count, 1)` (the source's
`counts[i] || 1` equals `max(count, 1)`); the next point interpolates from
the current point toward that centroid. -/
theorem C6_positive_weight_centroid (buffer : ℕ → ℚ) (width height : ℕ)
    (d : Delaunay) (v : Voronoi) (pts : List Vector) (n i : ℕ)
    (hin : i < n) (him : i < v.numCells)
    (hw : 0 < (accumulate buffer width height d n v.numCells).weights.getD i 0) :
    (recalculate buffer width height d v pts n).weights.getD i 0 =
      (accumulate buffer width height d n v.numCells).weights.getD i 0 /
        max ((accumulate buffer width height d n v.numCells).counts.getD i 0 : ℚ) 1 ∧
    (finalizeCells pts (accumulate buffer width height d n v.numCells)
        v.numCells).centroids.getD i ⟨0, 0⟩ =
      ⟨((accumulate buffer width height d n v.numCells).centroids.getD i ⟨0, 0⟩).x /
          (accumulate buffer width height d n v.numCells).weights.getD i 0,
        ((accumulate buffer width height d n v.numCells).centroids.getD i ⟨0, 0⟩).y /
          (accumulate buffer width height d n v.numCells).weights.getD i 0⟩ ∧
    (i < pts.length →
      (recalculate buffer width height d v pts n).points.getD i ⟨0, 0⟩ =
        lerpPoint (pts.getD i ⟨0, 0⟩)
          ((finalizeCells pts (accumulate buffer width height d n v.numCells)
            v.numCells).centroids.getD i ⟨0, 0⟩)
          LERP_SPEED) := by
  have hcl : i < (accumulate buffer width height d n v.numCells).centroids.length := by
    rw [accumulate_centroids_length]
    exact hin
  have hdiv : (if (accumulate buffer width height d n v.numCells).counts.getD i 0 = 0
      then (1 : ℚ)
      else ((accumulate buffer width height d n v.numCells).counts.getD i 0 : ℚ)) =
      max ((accumulate buffer width height d n v.numCells).counts.getD i 0 : ℚ) 1 := by
    by_cases hc : (accumulate buffer width height d n v.numCells).counts.getD i 0 = 0
    · rw [if_pos hc, hc]
      simp
    · rw [if_neg hc]
      have h1 : (1 : ℚ) ≤
          ((accumulate buffer width height d n v.numCells).counts.getD i 0 : ℚ) := by
        exact_mod_cast Nat.one_le_iff_ne_zero.mpr hc
      exact (max_eq_left h1).symm
  refine ⟨?_, ?_, ?_⟩
  · have hc : i < (accumulate buffer width height d n v.numCells).centroids.length ∧
        i < v.numCells ∧
        0 < (accumulate buffer width height d n v.numCells).weights.getD i 0 :=
      ⟨hcl, him, hw⟩
    rw [recalculate_weights, finalize_avg_getD, if_pos hc]
    unfold avgWeightValue
    rw [hdiv]
  · rw [finalize_centroid_getD _ _ _ _ hcl, if_pos hw]
    rfl
  · intro hip
    rw [recalculate_points, lerpPoints_getD _ _ _ _ hip]

theorem C6_positive_weight_centroid_witness :
    0 < (accumulate blackBuffer 1 1 (calculateDelaunay [⟨5, 5⟩]) 1
        ((calculateDelaunay [⟨5, 5⟩]).voronoi 0 0 1 1).numCells).weights.getD 0 0 ∧
    (recalculate blackBuffer 1 1 (calculateDelaunay [⟨5, 5⟩])
        ((calculateDelaunay [⟨5, 5⟩]).voronoi 0 0 1 1) [⟨5, 5⟩] 1).weights.getD 0 0 =
      (accumulate blackBuffer 1 1 (calculateDelaunay [⟨5, 5⟩]) 1
          ((calculateDelaunay [⟨5, 5⟩]).voronoi 0 0 1 1).numCells).weights.getD 0 0 /
        max ((accumulate blackBuffer 1 1 (calculateDelaunay [⟨5, 5⟩]) 1
          ((calculateDelaunay [⟨5, 5⟩]).voronoi 0 0 1 1).numCells).counts.getD 0 0 : ℚ)
          1 := by
  have hw : 0 < (accumulate blackBuffer 1 1 (calculateDelaunay [⟨5, 5⟩]) 1
      ((calculateDelaunay [⟨5, 5⟩]).voronoi 0 0 1 1).numCells).weights.getD 0 0 := by
    norm_num [accumulate, rasterPixels, accumStep, accumInit, getLuminosityFromBuffer,
      pixelWeight, Delaunay.find, dist2, blackBuffer, calculateDelaunay,
      Delaunay.voronoi, Voronoi.numCells, List.range_succ]
  exact ⟨hw, (C6_positive_weight_centroid blackBuffer 1 1 (calculateDelaunay [⟨5, 5⟩])
    ((calculateDelaunay [⟨5, 5⟩]).voronoi 0 0 1 1) [⟨5, 5⟩] 1 0
    Nat.zero_lt_one Nat.zero_lt_one hw).1⟩

/-- C7 counterexample: the per-pixel weight of the accumulation pass is the
hardcoded squared curve, not the linear one: at luminance 51 the code
accumulates `(1 - 51/255)^2 = 16/25`, which differs from the linear curve's
`1 - 51/255 = 4/5`; `recalculate`/`accumulate` take no parameter by which the
linear curve could be selected. -/
theorem C7_weight_curve_is_squared_not_linear :
    (accumulate gray51Buffer 1 1 (calculateDelaunay [⟨0, 0⟩]) 1 1).weights.getD 0 0 =
      pixelWeight 51 ∧
    pixelWeight 51 = (1 - (51 : ℚ) / 255) ^ 2 ∧
    linearCurveSpec 51 = 1 - (51 : ℚ) / 255 ∧
    (accumulate gray51Buffer 1 1 (calculateDelaunay [⟨0, 0⟩]) 1 1).weights.getD 0 0 ≠
      linearCurveSpec 51 := by
  refine ⟨?_, rfl, rfl, ?_⟩
  · norm_num [accumulate, rasterPixels, accumStep, accumInit, getLuminosityFromBuffer,
      pixelWeight, Delaunay.find, dist2, gray51Buffer, calculateDelaunay,
      List.range_succ]
  · norm_num [accumulate, rasterPixels, accumStep, accumInit, getLuminosityFromBuffer,
      pixelWeight, linearCurveSpec, Delaunay.find, dist2, gray51Buffer,
      calculateDelaunay, List.range_succ]

/-- C7 (amended): the accumulation pass visits every pixel of the
width×height grid exactly once in raster order (row-major: the pixel at
position `y*width + x` of the scan is `(x, y)`), derives the per-pixel weight
by the hardcoded squared curve `w = (1 - luminance/255)^2` (the linear curve
is not implemented and not selectable — no curve parameter exists), locates
the owning cell with the previous pixel's result as hint, adds `x*w`, `y*w`,
`w` and `1` to exactly that cell's x-sum, y-sum, weight-sum and pixel-count
while leaving every other cell untouched, and the triangulation consumed by
every step of the pass is the single frozen `delaunay` argument. -/
theorem C7_accumulation_pass :
    (∀ width height, (rasterPixels width height).length = width * height) ∧
    (∀ width height x y, x < width → y < height →
      (rasterPixels width height).getD (y * width + x) (0, 0) = (x, y)) ∧
    (∀ width height (p : ℕ × ℕ),
      p ∈ rasterPixels width height ↔ p.1 < width ∧ p.2 < height) ∧
    (∀ luminosity, pixelWeight luminosity = (1 - luminosity / 255) ^ 2) ∧
    pixelWeight 51 ≠ linearCurveSpec 51 ∧
    (∀ (buffer : ℕ → ℚ) (width : ℕ) (d : Delaunay) (s : AccumState) (p : ℕ × ℕ),
      (accumStep buffer width d s p).delaunayIndex =
        d.find (p.1 : ℚ) (p.2 : ℚ) s.delaunayIndex ∧
      (d.find (p.1 : ℚ) (p.2 : ℚ) s.delaunayIndex < s.weights.length →
        (accumStep buffer width d s p).weights.getD
            (d.find (p.1 : ℚ) (p.2 : ℚ) s.delaunayIndex) 0 =
          s.weights.getD (d.find (p.1 : ℚ) (p.2 : ℚ) s.delaunayIndex) 0 +
            pixelWeight (getLuminosityFromBuffer buffer p.1 p.2 width)) ∧
      (d.find (p.1 : ℚ) (p.2 : ℚ) s.delaunayIndex < s.counts.length →
        (accumStep buffer width d s p).counts.getD
            (d.find (p.1 : ℚ) (p.2 : ℚ) s.delaunayIndex) 0 =
          s.counts.getD (d.find (p.1 : ℚ) (p.2 : ℚ) s.delaunayIndex) 0 + 1) ∧
      (d.find (p.1 : ℚ) (p.2 : ℚ) s.delaunayIndex < s.centroids.length →
        (accumStep buffer width d s p).centroids.getD
            (d.find (p.1 : ℚ) (p.2 : ℚ) s.delaunayIndex) ⟨0, 0⟩ =
          ⟨(s.centroids.getD (d.find (p.1 : ℚ) (p.2 : ℚ) s.delaunayIndex) ⟨0, 0⟩).x +
              (p.1 : ℚ) * pixelWeight (getLuminosityFromBuffer buffer p.1 p.2 width),
            (s.centroids.getD (d.find (p.1 : ℚ) (p.2 : ℚ) s.delaunayIndex) ⟨0, 0⟩).y +
              (p.2 : ℚ) * pixelWeight (getLuminosityFromBuffer buffer p.1 p.2 width)⟩) ∧
      (∀ j, j ≠ d.find (p.1 : ℚ) (p.2 : ℚ) s.delaunayIndex →
        (accumStep buffer width d s p).weights.getD j 0 = s.weights.getD j 0 ∧
        (accumStep buffer width d s p).counts.getD j 0 = s.counts.getD j 0 ∧
        (accumStep buffer width d s p).centroids.getD j ⟨0, 0⟩ =
          s.centroids.getD j ⟨0, 0⟩)) := by
  refine ⟨rasterPixels_length, ?_, ?_, fun _ => rfl, ?_, ?_⟩
  · intro width height x y hx hy
    exact rasterPixels_getD width height x y hx hy
  · intro width height p
    exact rasterPixels_mem width height p
  · norm_num [pixelWeight, linearCurveSpec]
  · intro buffer width d s p
    refine ⟨rfl, ?_, ?_, ?_, ?_⟩
    · intro hlt
      unfold accumStep
      dsimp only
      rw [getD_set_self _ _ hlt]
    · intro hlt
      unfold accumStep
      dsimp only
      rw [getD_set_self _ _ hlt]
    · intro hlt
      unfold accumStep
      dsimp only
      rw [getD_set_self _ _ hlt]
    · intro j hj
      refine ⟨?_, ?_, ?_⟩ <;>
        · unfold accumStep
          dsimp only
          rw [getD_set_ne _ _ (fun h => hj h.symm)]

theorem C7_accumulation_pass_witness :
    ((0 : ℕ) < 2 ∧ (1 : ℕ) < 3) ∧
    (rasterPixels 2 3).getD (1 * 2 + 0) (0, 0) = (0, 1) :=
  ⟨⟨by decide, by decide⟩, C7_accumulation_pass.2.1 2 3 0 1 (by decide) (by decide)⟩

/-- C8: the per-point update is `next = current + (centroid - current) * t`
with the fixed blend factor `LERP_SPEED = 0.5`; at `t = 1` the update lands
exactly on the centroid (`t = 0` leaves the point unchanged), and the
displacement scales linearly with `t`, so for `t` near 0 the next point set
is nearly identical to the current one. -/
theorem C8_lerp_update :
    LERP_SPEED = 1 / 2 ∧
    (∀ a b : Vector, lerpPoint a b 1 = b) ∧
    (∀ a b : Vector, lerpPoint a b 0 = a) ∧
    (∀ (a b : Vector) (t : ℚ),
      (lerpPoint a b t).x = a.x + (b.x - a.x) * t ∧
      (lerpPoint a b t).y = a.y + (b.y - a.y) * t) ∧
    (∀ (a b : Vector) (t : ℚ),
      (lerpPoint a b t).x - a.x = t * (b.x - a.x) ∧
      (lerpPoint a b t).y - a.y = t * (b.y - a.y)) ∧
    (∀ (a b : List Vector) (i : ℕ), i < a.length →
      (lerpPoints a b 1).getD i ⟨0, 0⟩ = b.getD i ⟨0, 0⟩) ∧
    (∀ (buffer : ℕ → ℚ) (width height : ℕ) (d : Delaunay) (v : Voronoi)
        (pts : List Vector) (n i : ℕ), i < pts.length →
      (recalculate buffer width height d v pts n).points.getD i ⟨0, 0⟩ =
        lerpPoint (pts.getD i ⟨0, 0⟩)
          ((finalizeCells pts (accumulate buffer width height d n v.numCells)
            v.numCells).centroids.getD i ⟨0, 0⟩)
          LERP_SPEED) := by
  refine ⟨by norm_num [LERP_SPEED], lerpPoint_one, lerpPoint_zero, ?_, ?_, ?_, ?_⟩
  · intro a b t
    exact ⟨rfl, rfl⟩
  · intro a b t
    unfold lerpPoint
    constructor <;> (dsimp only; ring)
  · intro a b i hi
    rw [lerpPoints_getD _ _ _ _ hi, lerpPoint_one]
  · intro buffer width height d v pts n i hip
    rw [recalculate_points, lerpPoints_getD _ _ _ _ hip]

theorem C8_lerp_update_witness :
    (0 : ℕ) < [(⟨1, 1⟩ : Vector)].length ∧
    (lerpPoints [⟨1, 1⟩] [⟨3, 5⟩] 1).getD 0 ⟨0, 0⟩ = ⟨3, 5⟩ :=
  ⟨Nat.zero_lt_one,
    C8_lerp_update.2.2.2.2.2.1 [⟨1, 1⟩] [⟨3, 5⟩] 0 Nat.zero_lt_one⟩

/-- C9: every ink weight returned by a tick is non-negative, for every input
whatsoever. -/
theorem C9_weights_nonneg (buffer : ℕ → ℚ) (width height : ℕ) (d : Delaunay)
    (v : Voronoi) (pts : List Vector) (n i : ℕ) :
    0 ≤ (recalculate buffer width height d v pts n).weights.getD i 0 :=
  recalculate_weights_getD_nonneg buffer width height d v pts n i

/-- C10 (implicit): in a frame's accumulation pass every pixel of the grid is
routed to exactly one cell — the per-cell pixel counts sum to
`width * height` and the per-cell weight sums add up to the total of the
per-pixel weights over the whole scan; each per-pixel weight lies in `[0, 1]`
(for channel values in `[0, 255]`), and consequently every returned ink
weight lies in `[0, 1]`. -/
theorem C10_pixel_partition_and_weight_bounds (buffer : ℕ → ℚ)
    (width height : ℕ) (d : Delaunay) (v : Voronoi) (pts : List Vector) (n : ℕ)
    (hb : ∀ j, 0 ≤ buffer j ∧ buffer j ≤ 255)
    (hne : d.sites ≠ []) (hcells : v.numCells = d.sites.length) :
    (accumulate buffer width height d n v.numCells).counts.sum = width * height ∧
    (accumulate buffer width height d n v.numCells).weights.sum =
      ((rasterPixels width height).map
        (fun p => pixelWeight (getLuminosityFromBuffer buffer p.1 p.2 width))).sum ∧
    (∀ x y, 0 ≤ pixelWeight (getLuminosityFromBuffer buffer x y width) ∧
      pixelWeight (getLuminosityFromBuffer buffer x y width) ≤ 1) ∧
    (∀ i, 0 ≤ (recalculate buffer width height d v pts n).weights.getD i 0 ∧
      (recalculate buffer width height d v pts n).weights.getD i 0 ≤ 1) := by
  have hle : ∀ i, (accumulate buffer width height d n v.numCells).weights.getD i 0 ≤
      ((accumulate buffer width height d n v.numCells).counts.getD i 0 : ℚ) := by
    unfold accumulate
    apply foldl_accumStep_weight_le_count buffer width d hb
    · simp [accumInit]
    · intro i
      show (List.replicate v.numCells (0 : ℚ)).getD i 0 ≤
        (((List.replicate v.numCells (0 : ℕ)).getD i 0 : ℕ) : ℚ)
      rw [getD_replicate_self, getD_replicate_self]
      norm_num
  refine ⟨?_, ?_, ?_, ?_⟩
  · unfold accumulate
    rw [foldl_accumStep_counts_sum buffer width d hne _ _
      (by simp [accumInit, hcells])]
    have h0 : (accumInit n v.numCells).counts.sum = 0 := by simp [accumInit]
    rw [h0, Nat.zero_add, rasterPixels_length]
  · unfold accumulate
    rw [foldl_accumStep_weights_sum buffer width d hne _ _
      (by simp [accumInit, hcells])]
    have h0 : (accumInit n v.numCells).weights.sum = 0 := by simp [accumInit]
    rw [h0, zero_add]
  · intro x y
    have hlum := luminosity_bounds buffer x y width hb
    exact ⟨pixelWeight_nonneg _, pixelWeight_le_one _ hlum.1 hlum.2⟩
  · intro i
    refine ⟨recalculate_weights_getD_nonneg buffer width height d v pts n i, ?_⟩
    rw [recalculate_weights, finalize_avg_getD]
    split
    · next hcnd =>
      unfold avgWeightValue
      by_cases hc : (accumulate buffer width height d n v.numCells).counts.getD i 0 = 0
      · exfalso
        have h1 := hle i
        rw [hc] at h1
        push_cast at h1
        exact absurd hcnd.2.2 (not_lt.mpr h1)
      · rw [if_neg hc]
        have hcpos : (0 : ℚ) <
            ((accumulate buffer width height d n v.numCells).counts.getD i 0 : ℚ) := by
          exact_mod_cast Nat.pos_of_ne_zero hc
        rw [div_le_one hcpos]
        exact hle i
    · norm_num

theorem C10_pixel_partition_and_weight_bounds_witness :
    (accumulate blackBuffer 1 1 (calculateDelaunay [⟨0, 0⟩]) 1
        ((calculateDelaunay [⟨0, 0⟩]).voronoi 0 0 1 1).numCells).counts.sum = 1 * 1 ∧
    0 ≤ (recalculate blackBuffer 1 1 (calculateDelaunay [⟨0, 0⟩])
        ((calculateDelaunay [⟨0, 0⟩]).voronoi 0 0 1 1) [⟨0, 0⟩] 1).weights.getD 0 0 ∧
    (recalculate blackBuffer 1 1 (calculateDelaunay [⟨0, 0⟩])
        ((calculateDelaunay [⟨0, 0⟩]).voronoi 0 0 1 1) [⟨0, 0⟩] 1).weights.getD 0 0
      ≤ 1 := by
  have h := C10_pixel_partition_and_weight_bounds blackBuffer 1 1
    (calculateDelaunay [⟨0, 0⟩]) ((calculateDelaunay [⟨0, 0⟩]).voronoi 0 0 1 1)
    [⟨0, 0⟩] 1 (fun j => ⟨le_refl 0, by norm_num [blackBuffer]⟩)
    (by simp [calculateDelaunay]) rfl
  exact ⟨h.1, (h.2.2.2 0).1, (h.2.2.2 0).2⟩

theorem C5_zero_weight_fallback_witness :
    (∀ j, whiteBuffer j = (255 : ℚ)) ∧
    ([(⟨3, 4⟩ : Vector)].length ≤ 1) ∧
    (recalculate whiteBuffer 1 1 (calculateDelaunay [⟨3, 4⟩])
      ((calculateDelaunay [⟨3, 4⟩]).voronoi 0 0 1 1) [⟨3, 4⟩] 1).points =
        [⟨3, 4⟩] ∧
    (recalculate whiteBuffer 1 1 (calculateDelaunay [⟨3, 4⟩])
      ((calculateDelaunay [⟨3, 4⟩]).voronoi 0 0 1 1) [⟨3, 4⟩] 1).weights.getD 0 0
      = 0 :=
  ⟨fun _ => rfl, le_refl 1,
    (C5_zero_weight_fallback.2 whiteBuffer 1 1 (calculateDelaunay [⟨3, 4⟩])
      ((calculateDelaunay [⟨3, 4⟩]).voronoi 0 0 1 1) [⟨3, 4⟩] 1
      (fun _ => rfl) (le_refl 1)).1,
    (C5_zero_weight_fallback.2 whiteBuffer 1 1 (calculateDelaunay [⟨3, 4⟩])
      ((calculateDelaunay [⟨3, 4⟩]).voronoi 0 0 1 1) [⟨3, 4⟩] 1
      (fun _ => rfl) (le_refl 1)).2 0⟩

end Stippling
